import Mathlib

/-!
Formal model of `Tp3.py`, a static Huffman byte-stream compressor.

Bytes are modelled as `Nat` (values below 256 where the code handles real
bytes), bit strings of characters `'0'`/`'1'` as `List Bool` with
`false = '0'` and `true = '1'`, and Python byte buffers as `List Nat`.
Fallible steps (list indexing that can raise `IndexError`, `int.to_bytes`
that can raise `OverflowError`, dictionary lookups that can raise
`KeyError`) are modelled with `Option`.

The Python `while` loops terminate on a decreasing measure; here each such
loop is written with an explicit iteration bound (`fuel`) at least that
measure, which keeps the definitions structurally recursive and hence
executable by the kernel.  For each loop an unfolding lemma recovers the
loop equation, and a fuel-irrelevance lemma shows the bound does not affect
the result, so the models do not depend on the artificial bound.
-/

namespace Tp3

/-- Model of the Python `Node` class: a Huffman tree node.  In the source a
node stores `byte` (None for internal nodes) and `freq`, with `left`/`right`
set exactly for internal nodes; this inductive captures the two shapes. -/
inductive Node where
  | leaf (byte : Nat) (freq : Nat)
  | internal (freq : Nat) (left right : Node)
  deriving DecidableEq, Repr, Inhabited

/-- The `freq` field of a node. -/
def Node.freq : Node → Nat
  | .leaf _ f => f
  | .internal f _ _ => f

/-- Model of `Node.__lt__`: comparison by frequency only. -/
def Node.lt (a b : Node) : Bool :=
  a.freq < b.freq

/-- Whether a node is an internal node (Python: `node.byte is None`). -/
def Node.isInternal : Node → Prop
  | .leaf _ _ => False
  | .internal _ _ _ => True

instance : DecidablePred Node.isInternal := by
  intro n; cases n <;> simp [Node.isInternal] <;> infer_instance

/-! ## Model of Python `heapq`

`create_huffman_tree` relies on the standard-library `heapq` module.  The
definitions below are a direct translation of CPython's `heapq.heapify`,
`heapq.heappush` and `heapq.heappop` (with `_siftup`/`_siftdown`),
specialised to lists of `Node` compared with `Node.lt`.  Out-of-range list
reads use `getD` with a default; every call site keeps indices in range, so
the model agrees with the Python code there. -/

/-- Loop of CPython `heapq._siftdown` with an explicit iteration bound:
bubble `newitem` towards the root while it is smaller than its parent at
`(pos - 1) / 2`.  `pos` strictly decreases, so any fuel above `pos` is
sufficient. -/
def siftdownFuel : Nat → Nat → Node → List Node → Nat → List Node
  | 0, _, newitem, heap, pos => heap.set pos newitem
  | fuel + 1, startpos, newitem, heap, pos =>
    if startpos < pos then
      if newitem.lt (heap.getD ((pos - 1) / 2) default) then
        siftdownFuel fuel startpos newitem
          (heap.set pos (heap.getD ((pos - 1) / 2) default)) ((pos - 1) / 2)
      else
        heap.set pos newitem
    else
      heap.set pos newitem

/-- The `_siftdown` loop with its canonical (sufficient) bound. -/
def siftdownLoop (startpos : Nat) (newitem : Node) (heap : List Node) (pos : Nat) :
    List Node :=
  siftdownFuel (pos + 1) startpos newitem heap pos

theorem siftdownFuel_irrel (f : Nat) : ∀ (g pos : Nat), pos < f → pos < g →
    ∀ (startpos : Nat) (newitem : Node) (heap : List Node),
    siftdownFuel f startpos newitem heap pos = siftdownFuel g startpos newitem heap pos := by
  induction f with
  | zero => omega
  | succ f ih =>
    intro g pos hf hg startpos newitem heap
    match g, hg with
    | g + 1, hg =>
      show siftdownFuel (f + 1) _ _ _ _ = siftdownFuel (g + 1) _ _ _ _
      unfold siftdownFuel
      split
      · split
        · rename_i hlt _
          exact ih g ((pos - 1) / 2) (by omega) (by omega) _ _ _
        · rfl
      · rfl

/-- The loop equation of `_siftdown`, independent of the bound. -/
theorem siftdownLoop_eq (startpos : Nat) (newitem : Node) (heap : List Node)
    (pos : Nat) :
    siftdownLoop startpos newitem heap pos =
      if startpos < pos then
        if newitem.lt (heap.getD ((pos - 1) / 2) default) then
          siftdownLoop startpos newitem
            (heap.set pos (heap.getD ((pos - 1) / 2) default)) ((pos - 1) / 2)
        else
          heap.set pos newitem
      else
        heap.set pos newitem := by
  unfold siftdownLoop
  conv_lhs => rw [siftdownFuel]
  split
  · split
    · exact siftdownFuel_irrel (pos + 1 - 1) _ _ (by omega) (by omega) _ _ _
    · rfl
  · rfl

/-- CPython `heapq._siftdown heap startpos pos`. -/
def siftdown (heap : List Node) (startpos pos : Nat) : List Node :=
  siftdownLoop startpos (heap.getD pos default) heap pos

/-- Child-selection step of CPython `heapq._siftup`: the right child
`2*pos+2` is chosen when it exists and the left child is not smaller. -/
def pickChild (heap : List Node) (endpos pos : Nat) : Nat :=
  if 2 * pos + 2 < endpos ∧
       ¬ (heap.getD (2 * pos + 1) default).lt (heap.getD (2 * pos + 2) default)
  then 2 * pos + 2 else 2 * pos + 1

/-- Loop of CPython `heapq._siftup` with an explicit iteration bound: move
the smaller child up until a childless position is reached; returns the
heap together with the final position of the hole.  `endpos - pos` strictly
decreases, so any fuel at least that measure is sufficient. -/
def siftupFuel : Nat → Nat → List Node → Nat → List Node × Nat
  | 0, _, heap, pos => (heap, pos)
  | fuel + 1, endpos, heap, pos =>
    if 2 * pos + 1 < endpos then
      siftupFuel fuel endpos (heap.set pos (heap.getD (pickChild heap endpos pos) default))
        (pickChild heap endpos pos)
    else
      (heap, pos)

/-- The `_siftup` loop with its canonical (sufficient) bound. -/
def siftupLoop (endpos : Nat) (heap : List Node) (pos : Nat) : List Node × Nat :=
  siftupFuel (endpos - pos) endpos heap pos

theorem pickChild_gt (heap : List Node) (endpos pos : Nat) :
    pos < pickChild heap endpos pos := by
  unfold pickChild; split <;> omega

theorem pickChild_lt (heap : List Node) (endpos pos : Nat)
    (h : 2 * pos + 1 < endpos) : pickChild heap endpos pos < endpos := by
  unfold pickChild; split <;> omega

theorem siftupFuel_irrel (f : Nat) : ∀ (g endpos pos : Nat),
    endpos - pos ≤ f → endpos - pos ≤ g → ∀ (heap : List Node),
    siftupFuel f endpos heap pos = siftupFuel g endpos heap pos := by
  induction f with
  | zero =>
    intro g endpos pos hf hg heap
    have h0 : ¬ 2 * pos + 1 < endpos := by omega
    cases g with
    | zero => rfl
    | succ g =>
      show siftupFuel 0 _ _ _ = siftupFuel (g + 1) _ _ _
      unfold siftupFuel
      rw [if_neg h0]
  | succ f ih =>
    intro g endpos pos hf hg heap
    cases g with
    | zero =>
      have h0 : ¬ 2 * pos + 1 < endpos := by omega
      show siftupFuel (f + 1) _ _ _ = siftupFuel 0 _ _ _
      unfold siftupFuel
      rw [if_neg h0]
    | succ g =>
      show siftupFuel (f + 1) _ _ _ = siftupFuel (g + 1) _ _ _
      unfold siftupFuel
      split
      · rename_i hlt
        have h1 := pickChild_gt heap endpos pos
        have h2 := pickChild_lt heap endpos pos hlt
        exact ih g endpos _ (by omega) (by omega) _
      · rfl

/-- The loop equation of `_siftup`, independent of the bound. -/
theorem siftupLoop_eq (endpos : Nat) (heap : List Node) (pos : Nat) :
    siftupLoop endpos heap pos =
      if 2 * pos + 1 < endpos then
        siftupLoop endpos (heap.set pos (heap.getD (pickChild heap endpos pos) default))
          (pickChild heap endpos pos)
      else
        (heap, pos) := by
  unfold siftupLoop
  split
  · rename_i hlt
    have h1 := pickChild_gt heap endpos pos
    have h2 := pickChild_lt heap endpos pos hlt
    have he : endpos - pos = (endpos - pos - 1) + 1 := by omega
    rw [he]
    conv_lhs => rw [siftupFuel]
    rw [if_pos hlt]
    exact siftupFuel_irrel (endpos - pos - 1) (endpos - pickChild heap endpos pos) endpos
      (pickChild heap endpos pos) (by omega) (by omega)
      (heap.set pos (heap.getD (pickChild heap endpos pos) default))
  · rename_i hlt
    have he : endpos - pos = 0 ∨ ∃ k, endpos - pos = k + 1 := by
      cases endpos - pos <;> simp
    rcases he with he | ⟨k, he⟩ <;> rw [he]
    · rfl
    · conv_lhs => rw [siftupFuel]
      rw [if_neg hlt]

/-- CPython `heapq._siftup heap pos`. -/
def siftup (heap : List Node) (pos : Nat) : List Node :=
  let newitem := heap.getD pos default
  let hp := siftupLoop heap.length heap pos
  siftdown (hp.1.set hp.2 newitem) pos hp.2

/-- CPython `heapq.heapify`: sift down every non-leaf index, last first. -/
def heapify (x : List Node) : List Node :=
  (List.range (x.length / 2)).reverse.foldl (fun h i => siftup h i) x

/-- CPython `heapq.heappush`: append then restore the heap invariant. -/
def heappush (heap : List Node) (item : Node) : List Node :=
  siftdown (heap ++ [item]) 0 heap.length

/-- CPython `heapq.heappop`: pop the last element, move it to the root and
sift; `none` models the `IndexError` raised on an empty heap. -/
def heappop (heap : List Node) : Option (Node × List Node) :=
  match heap.getLast? with
  | none => none
  | some lastelt =>
    if heap.dropLast = [] then some (lastelt, [])
    else some (heap.dropLast.getD 0 default, siftup (heap.dropLast.set 0 lastelt) 0)

/-! ### Length facts about the heap operations. -/

theorem siftdownLoop_length (startpos : Nat) (newitem : Node) (heap : List Node)
    (pos : Nat) : (siftdownLoop startpos newitem heap pos).length = heap.length := by
  induction pos using Nat.strong_induction_on generalizing heap with
  | _ pos ih =>
    rw [siftdownLoop_eq]
    split
    · split
      · rw [ih _ (by omega)]
        simp
      · simp
    · simp

theorem siftdown_length (heap : List Node) (startpos pos : Nat) :
    (siftdown heap startpos pos).length = heap.length := by
  unfold siftdown; rw [siftdownLoop_length]

theorem siftupLoop_length (endpos : Nat) : ∀ (m : Nat) (heap : List Node) (pos : Nat),
    endpos - pos = m → (siftupLoop endpos heap pos).1.length = heap.length := by
  intro m
  induction m using Nat.strong_induction_on with
  | _ m ih =>
    intro heap pos hm
    rw [siftupLoop_eq]
    split
    · rename_i h
      have h1 := pickChild_gt heap endpos pos
      have h2 := pickChild_lt heap endpos pos h
      rw [ih (endpos - pickChild heap endpos pos) (by omega) _ _ rfl]
      simp
    · rfl

theorem siftup_length (heap : List Node) (pos : Nat) :
    (siftup heap pos).length = heap.length := by
  unfold siftup
  rw [siftdown_length]
  simp [siftupLoop_length heap.length _ heap pos rfl]

theorem heapify_length (x : List Node) : (heapify x).length = x.length := by
  unfold heapify
  generalize (List.range (x.length / 2)).reverse = l
  induction l generalizing x with
  | nil => rfl
  | cons i t ih => simp only [List.foldl_cons]; rw [ih, siftup_length]

theorem heappush_length (heap : List Node) (item : Node) :
    (heappush heap item).length = heap.length + 1 := by
  unfold heappush
  rw [siftdown_length]
  simp

theorem heappop_nil : heappop [] = none := rfl

theorem heappop_concat (l : List Node) (x : Node) :
    heappop (l ++ [x]) =
      if l = [] then some (x, [])
      else some (l.getD 0 default, siftup (l.set 0 x) 0) := by
  unfold heappop
  rw [List.getLast?_concat, List.dropLast_concat]

theorem heappop_length (heap : List Node) (n : Node) (rest : List Node)
    (h : heappop heap = some (n, rest)) : rest.length + 1 = heap.length := by
  rcases List.eq_nil_or_concat heap with hn | ⟨l, x, hc⟩
  · subst hn; cases h
  · subst hc
    rw [List.concat_eq_append, heappop_concat] at h
    split at h
    · rename_i hl
      cases h
      subst hl
      rfl
    · cases h
      rw [siftup_length]
      simp

theorem heappop_isSome (heap : List Node) (h : heap ≠ []) :
    (heappop heap).isSome := by
  rcases List.eq_nil_or_concat heap with hn | ⟨l, x, hc⟩
  · exact absurd hn h
  · subst hc
    rw [List.concat_eq_append, heappop_concat]
    split <;> simp

/-! ## Huffman tree construction (`create_huffman_tree`) -/

/-- The merge loop of `create_huffman_tree` (`while len(heap) > 1`) with an
explicit iteration bound, followed by `return heap[0]`; `none` models the
`IndexError` of `heap[0]` on an empty heap.  Each iteration shrinks the
heap by one, so any fuel at least the heap length is sufficient.  The
branches returning `none` after a failed pop are unreachable: inside the
loop the heap has at least two elements. -/
def huffFuel : Nat → List Node → Option Node
  | 0, heap => heap.head?
  | fuel + 1, heap =>
    if heap.length ≤ 1 then heap.head?
    else
      match heappop heap with
      | none => none
      | some (left, h1) =>
        match heappop h1 with
        | none => none
        | some (right, h2) =>
          huffFuel fuel (heappush h2 (.internal (left.freq + right.freq) left right))

/-- The merge loop with its canonical (sufficient) bound. -/
def huffLoop (heap : List Node) : Option Node :=
  huffFuel heap.length heap

theorem huffFuel_irrel (f : Nat) : ∀ (g : Nat) (heap : List Node),
    heap.length ≤ f → heap.length ≤ g → huffFuel f heap = huffFuel g heap := by
  induction f with
  | zero =>
    intro g heap hf hg
    have h0 : heap.length ≤ 1 := by omega
    cases g with
    | zero => rfl
    | succ g =>
      show huffFuel 0 _ = huffFuel (g + 1) _
      unfold huffFuel
      rw [if_pos h0]
  | succ f ih =>
    intro g heap hf hg
    cases g with
    | zero =>
      have h0 : heap.length ≤ 1 := by omega
      show huffFuel (f + 1) _ = huffFuel 0 _
      unfold huffFuel
      rw [if_pos h0]
    | succ g =>
      show huffFuel (f + 1) _ = huffFuel (g + 1) _
      unfold huffFuel
      split
      · rfl
      · rename_i hlen
        cases hp : heappop heap with
        | none => rfl
        | some p =>
          obtain ⟨left, h1⟩ := p
          dsimp only
          cases hp2 : heappop h1 with
          | none => rfl
          | some p2 =>
            obtain ⟨right, h2⟩ := p2
            dsimp only
            have e1 := heappop_length heap left h1 hp
            have e2 := heappop_length h1 right h2 hp2
            have e3 := heappush_length h2 (.internal (left.freq + right.freq) left right)
            exact ih g _ (by omega) (by omega)

/-- The loop equation of the merge loop, independent of the bound. -/
theorem huffLoop_eq (heap : List Node) :
    huffLoop heap =
      if heap.length ≤ 1 then heap.head?
      else
        match heappop heap with
        | none => none
        | some (left, h1) =>
          match heappop h1 with
          | none => none
          | some (right, h2) =>
            huffLoop (heappush h2 (.internal (left.freq + right.freq) left right)) := by
  unfold huffLoop
  split
  · rename_i h0
    cases hl : heap.length with
    | zero =>
      have : heap = [] := List.length_eq_zero.mp hl
      subst this; rfl
    | succ n =>
      rw [show huffFuel (n + 1) heap = if heap.length ≤ 1 then heap.head? else _ from rfl]
      rw [if_pos h0]
  · rename_i h0
    cases hl : heap.length with
    | zero => omega
    | succ n =>
      show huffFuel (n + 1) heap = _
      conv_lhs => rw [huffFuel]
      rw [if_neg h0]
      cases hp : heappop heap with
      | none => rfl
      | some p =>
        obtain ⟨left, h1⟩ := p
        dsimp only
        cases hp2 : heappop h1 with
        | none => rfl
        | some p2 =>
          obtain ⟨right, h2⟩ := p2
          dsimp only
          have e1 := heappop_length heap left h1 hp
          have e2 := heappop_length h1 right h2 hp2
          have e3 := heappush_length h2 (.internal (left.freq + right.freq) left right)
          exact huffFuel_irrel n
            (heappush h2 (.internal (left.freq + right.freq) left right)).length
            (heappush h2 (.internal (left.freq + right.freq) left right))
            (by omega) (by omega)

/-- Model of `create_huffman_tree`: build one leaf per `(byte, freq)` item
(in dictionary insertion order), heapify, then merge until one node is
left. -/
def create_huffman_tree (frequencies : List (Nat × Nat)) : Option Node :=
  huffLoop (heapify (frequencies.map fun p => Node.leaf p.1 p.2))

/-! ## Code generation (`generate_codes`) -/

/-- Model of `generate_codes`: walk the tree accumulating the edge labels
(`false` for a left edge `"0"`, `true` for a right edge `"1"`); the result
lists the `codebook` entries in insertion order. -/
def generate_codes : Node → List Bool → List (Nat × List Bool)
  | .leaf b _, pre => [(b, pre)]
  | .internal _ l r, pre =>
    generate_codes l (pre ++ [false]) ++ generate_codes r (pre ++ [true])

/-! ## Frequency counting (`collections.Counter`) -/

/-- One counting step of `collections.Counter`: increment the count of `b`,
keeping first-occurrence order, or append `(b, 1)` if `b` is new. -/
def incr : List (Nat × Nat) → Nat → List (Nat × Nat)
  | [], b => [(b, 1)]
  | (k, v) :: rest, b =>
    if k = b then (k, v + 1) :: rest else (k, v) :: incr rest b

/-- Model of `Counter(data)`: the frequency table as an association list in
first-occurrence order (the iteration order of the Python dictionary). -/
def counter (data : List Nat) : List (Nat × Nat) :=
  data.foldl incr []

/-! ## Bit-string and byte conversions -/

/-- Model of `int(s, 2)`: the value of a bit string read as binary. -/
def bitsToNat (bits : List Bool) : Nat :=
  bits.foldl (fun a b => 2 * a + cond b 1 0) 0

/-- Model of `bits_to_bytes`: group the bit string into chunks of eight and
convert each chunk with `int(chunk, 2)`; a final chunk shorter than eight
bits is converted as-is (in `compress_file` the length is always a multiple
of eight). -/
def bits_to_bytes : List Bool → List Nat
  | [] => []
  | [a] => [bitsToNat [a]]
  | [a, b] => [bitsToNat [a, b]]
  | [a, b, c] => [bitsToNat [a, b, c]]
  | [a, b, c, d] => [bitsToNat [a, b, c, d]]
  | [a, b, c, d, e] => [bitsToNat [a, b, c, d, e]]
  | [a, b, c, d, e, f] => [bitsToNat [a, b, c, d, e, f]]
  | [a, b, c, d, e, f, g] => [bitsToNat [a, b, c, d, e, f, g]]
  | a :: b :: c :: d :: e :: f :: g :: h :: rest =>
    bitsToNat [a, b, c, d, e, f, g, h] :: bits_to_bytes rest

/-- Binary digits of `n`, most significant first, with an explicit
recursion bound (`n` halves each step, so any fuel above `n` is
sufficient). -/
def natToBitsFuel : Nat → Nat → List Bool
  | 0, n => [decide (n = 1)]
  | fuel + 1, n =>
    if n < 2 then [decide (n = 1)]
    else natToBitsFuel fuel (n / 2) ++ [decide (n % 2 = 1)]

/-- Binary digits of a natural number, most significant first, as produced
by Python's `format(n, b)`; `0` is rendered as the single digit `0`. -/
def natToBits (n : Nat) : List Bool :=
  natToBitsFuel n n

theorem natToBitsFuel_irrel (f : Nat) : ∀ (g n : Nat), n ≤ f + 1 → n ≤ g + 1 →
    natToBitsFuel f n = natToBitsFuel g n := by
  induction f with
  | zero =>
    intro g n hf hg
    have h2 : n < 2 := by omega
    cases g with
    | zero => rfl
    | succ g =>
      show natToBitsFuel 0 _ = natToBitsFuel (g + 1) _
      unfold natToBitsFuel
      rw [if_pos h2]
  | succ f ih =>
    intro g n hf hg
    cases g with
    | zero =>
      have h2 : n < 2 := by omega
      show natToBitsFuel (f + 1) _ = natToBitsFuel 0 _
      unfold natToBitsFuel
      rw [if_pos h2]
    | succ g =>
      show natToBitsFuel (f + 1) _ = natToBitsFuel (g + 1) _
      unfold natToBitsFuel
      split
      · rfl
      · rename_i h2
        rw [ih g (n / 2) (by omega) (by omega)]

/-- The recursion equation of `natToBits`, independent of the bound. -/
theorem natToBits_eq (n : Nat) :
    natToBits n =
      if n < 2 then [decide (n = 1)]
      else natToBits (n / 2) ++ [decide (n % 2 = 1)] := by
  unfold natToBits
  split
  · rename_i h2
    cases n with
    | zero => rfl
    | succ n =>
      conv_lhs => rw [natToBitsFuel]
      rw [if_pos h2]
  · rename_i h2
    cases n with
    | zero => omega
    | succ n =>
      conv_lhs => rw [natToBitsFuel]
      rw [if_neg h2]
      rw [natToBitsFuel_irrel n ((n + 1) / 2) ((n + 1) / 2) (by omega) (by omega)]

/-- Model of the f-string `byte:08b`: the binary digits of `byte`,
left-padded with `0` to at least eight characters. -/
def byteToBits (b : Nat) : List Bool :=
  List.replicate (8 - (natToBits b).length) false ++ natToBits b

/-- Model of `bytes_to_bits`: concatenate the eight-bit renderings of each
byte. -/
def bytes_to_bits (byte_arr : List Nat) : List Bool :=
  (byte_arr.map byteToBits).flatten

/-! ## Integer serialization -/

/-- Big-endian digits in base 256, fixed width `k` (low-level form of
`n.to_bytes(k, big)`). -/
def toBytesAux : Nat → Nat → List Nat
  | _, 0 => []
  | n, k + 1 => toBytesAux (n / 256) k ++ [n % 256]

/-- Model of `n.to_bytes(k, big)`: `none` models the `OverflowError`
raised when `n` does not fit in `k` bytes. -/
def to_bytes (n k : Nat) : Option (List Nat) :=
  if n < 256 ^ k then some (toBytesAux n k) else none

/-- Model of `int.from_bytes(bs, big)` (accepts any length, including
zero). -/
def from_bytes (bs : List Nat) : Nat :=
  bs.foldl (fun a b => 256 * a + b) 0

/-! ## Compression (`compress_file`)

File input/output is replaced by explicit byte lists: the function takes
the contents of the original file and returns the bytes written to the
compressed file.  The statistics printed afterwards (entropy, average code
length, compression ratio) never influence the written bytes and are
outside the modelled core, so they are omitted here. -/

/-- Model of the per-byte encoding step
`join(huffman_codes[byte] for byte in data)`: `none` models the `KeyError`
of a byte missing from the codebook (never reached from `compress_file`).
Dictionary lookup is `List.lookup` on the entry list; the leaves of a
Huffman tree built from a `Counter` are distinct, so first match and
Python's last-write dictionary semantics agree. -/
def encodeData (codes : List (Nat × List Bool)) : List Nat → Option (List Bool)
  | [] => some []
  | b :: rest => do
    let c ← codes.lookup b
    let restBits ← encodeData codes rest
    pure (c ++ restBits)

/-- The padding computation of `compress_file`
(`padding = 8 - len(encoded_data) % 8`). -/
def pad_amount (len : Nat) : Nat :=
  8 - len % 8

/-- The frequency-record section written by `compress_file`: for each entry
one byte (`bytes([byte])`, `none` modelling the `ValueError` for a value
above 255) followed by the frequency as four big-endian bytes. -/
def recordsBytes : List (Nat × Nat) → Option (List Nat)
  | [] => some []
  | (b, f) :: rest => do
    let bb ← if b < 256 then some [b] else none
    let fb ← to_bytes f 4
    let restB ← recordsBytes rest
    pure (bb ++ fb ++ restB)

/-- Model of `compress_file`: count frequencies, build the Huffman tree,
generate codes, encode, pad with `8 - len % 8` zero bits, and serialize the
container (distinct count as two big-endian bytes, the frequency records,
the padding count byte, then the packed payload). -/
def compress_file (data : List Nat) : Option (List Nat) := do
  let frequencies := counter data
  let huffman_tree ← create_huffman_tree frequencies
  let huffman_codes := generate_codes huffman_tree []
  let encoded_data ← encodeData huffman_codes data
  let padding := pad_amount encoded_data.length
  let padded := encoded_data ++ List.replicate padding false
  let header ← to_bytes frequencies.length 2
  let records ← recordsBytes frequencies
  pure (header ++ records ++ [padding] ++ bits_to_bytes padded)

/-! ## Decompression (`decompress_file`) -/

/-- The frequency-reading loop of `decompress_file`: `num_bytes` times,
read one byte (`f_in.read(1)[0]`, `none` modelling the `IndexError` at end
of input) and four frequency bytes (`int.from_bytes` accepts a short or
empty read without error).  Returns the table together with the rest of
the buffer. -/
def readRecords : Nat → List Nat → Option (List (Nat × Nat) × List Nat)
  | 0, buf => some ([], buf)
  | n + 1, buf => do
    let b ← buf.head?
    let f := from_bytes ((buf.drop 1).take 4)
    let pr ← readRecords n ((buf.drop 1).drop 4)
    pure ((b, f) :: pr.1, pr.2)

/-- The decoding loop of `decompress_file`: walk the tree bit by bit
(`'0'` = left, `'1'` = right), emit the byte and restart from the root at
each leaf, and stop silently when the bits run out.  `none` models the
`AttributeError` of stepping below a leaf (reachable only if the root
itself is a leaf). -/
def decode_loop (root : Node) : List Bool → Node → Option (List Nat)
  | [], _ => some []
  | bit :: rest, node =>
    match node with
    | .leaf _ _ => none
    | .internal _ l r =>
      match (if bit then r else l) with
      | .leaf b _ => (decode_loop root rest root).map (fun out => b :: out)
      | .internal f2 l2 r2 => decode_loop root rest (.internal f2 l2 r2)

/-- Model of `decompress_file`: read the distinct count, the frequency
records, rebuild the tree with the same `create_huffman_tree`, read the
padding byte, strip that many trailing bits (`encoded_data[:-padding]`,
which is empty when `padding = 0`), and decode.  The result is the byte
list written to the output file; `none` models any exception (all caught
by the blanket handler, which prints an error and writes nothing). -/
def decompress_file (buf : List Nat) : Option (List Nat) := do
  let num_bytes := from_bytes (buf.take 2)
  let buf1 := buf.drop 2
  let pr ← readRecords num_bytes buf1
  let huffman_tree ← create_huffman_tree pr.1
  let padding ← pr.2.head?
  let byte_data := pr.2.drop 1
  let bits := bytes_to_bits byte_data
  let encoded_data := if padding = 0 then [] else bits.take (bits.length - padding)
  decode_loop huffman_tree encoded_data huffman_tree

/-! ## The heap operations permute their input

Each sift pass moves values along a path while keeping one value aside
(`newitem`), writing it back into the final hole; so a sift is a
permutation of the list with the saved value written over the initial
hole.  These lemmas make that precise via occurrence counts. -/

theorem count_set (l : List Node) : ∀ (i : Nat), i < l.length → ∀ (a x : Node),
    (l.set i a).count x + (if l.getD i default = x then 1 else 0)
      = l.count x + (if a = x then 1 else 0) := by
  induction l with
  | nil => intro i hi; simp at hi
  | cons h t ih =>
    intro i hi a x
    cases i with
    | zero =>
      simp only [List.set_cons_zero, List.count_cons, List.getD_cons_zero]
      split_ifs <;> simp_all
    | succ i =>
      have hlen : i < t.length := by simpa using hi
      have := ih i hlen a x
      simp only [List.set_cons_succ, List.count_cons, List.getD_cons_succ]
      split_ifs at this ⊢ <;> omega

theorem getD_set_self (l : List Node) (i : Nat) (hi : i < l.length) (a : Node) :
    (l.set i a).getD i default = a := by
  simp [List.getD_eq_getElem?_getD, List.getElem?_set_self hi]

theorem getD_set_ne (l : List Node) (i j : Nat) (hij : i ≠ j) (a : Node) :
    (l.set i a).getD j default = l.getD j default := by
  simp [List.getD_eq_getElem?_getD, List.getElem?_set_ne hij]

theorem set_getD_self (l : List Node) (i : Nat) (hi : i < l.length) :
    l.set i (l.getD i default) = l := by
  apply List.ext_getElem?
  intro j
  by_cases hij : i = j
  · subst hij
    simp [List.getElem?_set_self hi, List.getD_eq_getElem?_getD,
      List.getElem?_eq_getElem hi]
  · simp [List.getElem?_set_ne hij]

/-- Writing the value at `j` over position `i` and then `x` over `j` is,
up to permutation, just writing `x` over position `i`. -/
theorem set_set_swap_perm (l : List Node) (i j : Nat) (hi : i < l.length)
    (hj : j < l.length) (hij : i ≠ j) (x : Node) :
    ((l.set i (l.getD j default)).set j x).Perm (l.set i x) := by
  rw [List.perm_iff_count]
  intro c
  have h1 := count_set (l.set i (l.getD j default)) j (by simpa using hj) x c
  have h2 := count_set l i hi (l.getD j default) c
  have h3 := count_set l i hi x c
  rw [getD_set_ne l i j hij _] at h1
  split_ifs at h1 h2 h3 <;> omega

theorem siftdownLoop_perm (s : Nat) (x : Node) : ∀ (pos : Nat) (heap : List Node),
    pos < heap.length → (siftdownLoop s x heap pos).Perm (heap.set pos x) := by
  intro pos
  induction pos using Nat.strong_induction_on with
  | _ pos ih =>
    intro heap hpos
    rw [siftdownLoop_eq]
    split
    · split
      · rename_i hs hlt
        have hplt : (pos - 1) / 2 < pos := by omega
        have hrec := ih _ hplt (heap.set pos (heap.getD ((pos - 1) / 2) default))
          (by simp; omega)
        refine hrec.trans ?_
        exact set_set_swap_perm heap pos ((pos - 1) / 2) hpos (by omega) (by omega) x
      · exact List.Perm.refl _
    · exact List.Perm.refl _

theorem siftupLoop_perm (endpos : Nat) (x : Node) : ∀ (m pos : Nat) (heap : List Node),
    endpos - pos = m → pos < heap.length → endpos ≤ heap.length →
    ((siftupLoop endpos heap pos).1.set (siftupLoop endpos heap pos).2 x).Perm
        (heap.set pos x)
      ∧ (siftupLoop endpos heap pos).2 < heap.length := by
  intro m
  induction m using Nat.strong_induction_on with
  | _ m ih =>
    intro pos heap hm hpos hend
    rw [siftupLoop_eq]
    split
    · rename_i hlt
      have h1 := pickChild_gt heap endpos pos
      have h2 := pickChild_lt heap endpos pos hlt
      have hrec := ih (endpos - pickChild heap endpos pos) (by omega)
        (pickChild heap endpos pos)
        (heap.set pos (heap.getD (pickChild heap endpos pos) default))
        rfl (by simp; omega) (by simpa using hend)
      refine ⟨hrec.1.trans ?_, by simpa using hrec.2⟩
      exact set_set_swap_perm heap pos (pickChild heap endpos pos) hpos (by omega)
        (by omega) x
    · exact ⟨List.Perm.refl _, hpos⟩

theorem siftup_perm (heap : List Node) (pos : Nat) (hpos : pos < heap.length) :
    (siftup heap pos).Perm heap := by
  have hl := siftupLoop_perm heap.length (heap.getD pos default)
    (heap.length - pos) pos heap rfl hpos (Nat.le_refl _)
  have hlen := siftupLoop_length heap.length (heap.length - pos) heap pos rfl
  rw [show siftup heap pos
      = siftdown ((siftupLoop heap.length heap pos).1.set
          (siftupLoop heap.length heap pos).2 (heap.getD pos default)) pos
          (siftupLoop heap.length heap pos).2 from rfl]
  unfold siftdown
  have hget : ((siftupLoop heap.length heap pos).1.set (siftupLoop heap.length heap pos).2
      (heap.getD pos default)).getD (siftupLoop heap.length heap pos).2 default
      = heap.getD pos default := by
    exact getD_set_self _ _ (by omega) _
  rw [hget]
  have hperm := siftdownLoop_perm pos (heap.getD pos default)
    (siftupLoop heap.length heap pos).2
    ((siftupLoop heap.length heap pos).1.set (siftupLoop heap.length heap pos).2
      (heap.getD pos default))
    (by simp; omega)
  refine hperm.trans ?_
  rw [List.set_set]
  exact hl.1.trans (by rw [set_getD_self heap pos hpos])

theorem heapify_perm (x : List Node) : (heapify x).Perm x := by
  unfold heapify
  have hbound : ∀ i ∈ (List.range (x.length / 2)).reverse, i < x.length := by
    intro i hi
    rw [List.mem_reverse, List.mem_range] at hi
    omega
  generalize (List.range (x.length / 2)).reverse = l at hbound
  induction l generalizing x with
  | nil => exact List.Perm.refl _
  | cons i t ih =>
    simp only [List.foldl_cons]
    have hi : i < x.length := hbound i (by simp)
    have hperm := siftup_perm x i hi
    have hlen := siftup_length x i
    refine (ih (siftup x i) ?_).trans hperm
    intro j hj
    rw [hlen]
    exact hbound j (List.mem_cons_of_mem _ hj)

theorem heappush_perm (heap : List Node) (item : Node) :
    (heappush heap item).Perm (item :: heap) := by
  unfold heappush siftdown
  have hget : (heap ++ [item]).getD heap.length default = item := by
    simp [List.getD_eq_getElem?_getD, List.getElem?_append_right (Nat.le_refl _)]
  rw [hget]
  have hlen2 : heap.length < (heap ++ [item]).length := by
    rw [List.length_append]; simp
  have hperm := siftdownLoop_perm 0 item heap.length (heap ++ [item]) hlen2
  refine hperm.trans ?_
  rw [show (heap ++ [item]).set heap.length item = heap ++ [item] from ?_]
  · exact List.perm_append_singleton item heap
  · nth_rewrite 2 [← hget]
    exact set_getD_self _ _ hlen2

theorem heappop_perm (heap : List Node) (n : Node) (rest : List Node)
    (h : heappop heap = some (n, rest)) : (n :: rest).Perm heap := by
  rcases List.eq_nil_or_concat heap with hn | ⟨l, x, hc⟩
  · subst hn; cases h
  · subst hc
    rw [List.concat_eq_append] at *
    rw [heappop_concat] at h
    split at h
    · rename_i hl
      cases h
      subst hl
      exact List.Perm.refl _
    · rename_i hl
      cases h
      cases l with
      | nil => exact absurd rfl hl
      | cons a t =>
        have hperm := siftup_perm ((a :: t).set 0 x) 0 (by simp)
        simp only [List.set_cons_zero] at hperm
        simp only [List.getD_cons_zero]
        refine List.Perm.trans (List.Perm.cons a hperm) ?_
        refine List.Perm.trans (List.Perm.swap x a t) ?_
        exact (List.perm_append_singleton x (a :: t)).symm

/-! ## Leaves of the constructed tree -/

/-- The byte values at the leaves of a tree, left to right. -/
def Node.leaves : Node → List Nat
  | .leaf b _ => [b]
  | .internal _ l r => l.leaves ++ r.leaves

/-- All leaf bytes present across a heap of nodes. -/
def heapLeaves (heap : List Node) : List Nat :=
  (heap.map Node.leaves).flatten

theorem perm_flatten {l₁ l₂ : List (List Nat)} (h : l₁.Perm l₂) :
    l₁.flatten.Perm l₂.flatten := by
  induction h with
  | nil => exact List.Perm.refl _
  | cons x _ ih => simpa using ih.append_left x
  | swap x y l =>
    simp only [List.flatten_cons]
    rw [← List.append_assoc, ← List.append_assoc]
    exact List.perm_append_comm.append_right _
  | trans _ _ ih1 ih2 => exact ih1.trans ih2

theorem heapLeaves_perm {h₁ h₂ : List Node} (h : h₁.Perm h₂) :
    (heapLeaves h₁).Perm (heapLeaves h₂) :=
  perm_flatten (h.map Node.leaves)

theorem heapLeaves_cons (x : Node) (l : List Node) :
    heapLeaves (x :: l) = x.leaves ++ heapLeaves l := by
  simp [heapLeaves]

theorem huffLoop_leaves : ∀ (m : Nat) (heap : List Node) (t : Node),
    heap.length = m → huffLoop heap = some t →
    t.leaves.Perm (heapLeaves heap) := by
  intro m
  induction m using Nat.strong_induction_on with
  | _ m ih =>
    intro heap t hm hl
    rw [huffLoop_eq] at hl
    split at hl
    · rename_i h1
      obtain ⟨ys, rfl⟩ := List.head?_eq_some_iff.mp hl
      have : ys = [] := by
        cases ys with
        | nil => rfl
        | cons a b => simp at h1
      subst this
      simp [heapLeaves, Node.leaves]
    · rename_i h1
      cases hp : heappop heap with
      | none => rw [hp] at hl; cases hl
      | some p =>
        obtain ⟨left, hl1⟩ := p
        rw [hp] at hl
        dsimp only at hl
        cases hp2 : heappop hl1 with
        | none => rw [hp2] at hl; cases hl
        | some p2 =>
          obtain ⟨right, h2⟩ := p2
          rw [hp2] at hl
          dsimp only at hl
          have e1 := heappop_length heap left hl1 hp
          have e2 := heappop_length hl1 right h2 hp2
          have e3 := heappush_length h2 (.internal (left.freq + right.freq) left right)
          have hrec := ih (heap.length - 1) (by omega) _ t (by omega) hl
          have p1 := heappop_perm heap left hl1 hp
          have p2 := heappop_perm hl1 right h2 hp2
          have p3 := heappush_perm h2 (.internal (left.freq + right.freq) left right)
          refine hrec.trans ?_
          refine (heapLeaves_perm p3).trans ?_
          rw [heapLeaves_cons]
          have : Node.leaves (.internal (left.freq + right.freq) left right)
              = left.leaves ++ right.leaves := rfl
          rw [this, List.append_assoc, ← heapLeaves_cons right h2]
          refine List.Perm.trans (List.Perm.append_left _ (heapLeaves_perm p2)) ?_
          rw [← heapLeaves_cons left hl1]
          exact heapLeaves_perm p1

theorem huffLoop_isSome : ∀ (m : Nat) (heap : List Node), heap.length = m →
    heap ≠ [] → (huffLoop heap).isSome := by
  intro m
  induction m using Nat.strong_induction_on with
  | _ m ih =>
    intro heap hm hne
    rw [huffLoop_eq]
    split
    · rename_i h1
      cases heap with
      | nil => exact absurd rfl hne
      | cons a t => simp
    · rename_i h1
      cases hp : heappop heap with
      | none =>
        have := heappop_isSome heap hne
        rw [hp] at this
        cases this
      | some p =>
        obtain ⟨left, hl1⟩ := p
        dsimp only
        have e1 := heappop_length heap left hl1 hp
        have hne1 : hl1 ≠ [] := by
          intro he
          subst he
          simp at e1
          omega
        cases hp2 : heappop hl1 with
        | none =>
          have := heappop_isSome hl1 hne1
          rw [hp2] at this
          cases this
        | some p2 =>
          obtain ⟨right, h2⟩ := p2
          dsimp only
          have e2 := heappop_length hl1 right h2 hp2
          have e3 := heappush_length h2 (.internal (left.freq + right.freq) left right)
          refine ih (heap.length - 1) (by omega) _ (by omega) ?_
          intro he
          rw [he] at e3
          simp at e3

theorem huffLoop_internal : ∀ (m : Nat) (heap : List Node) (t : Node),
    heap.length = m → 2 ≤ heap.length → huffLoop heap = some t →
    t.isInternal := by
  intro m
  induction m using Nat.strong_induction_on with
  | _ m ih =>
    intro heap t hm h2le hl
    rw [huffLoop_eq] at hl
    split at hl
    · rename_i h1; omega
    · rename_i h1
      cases hp : heappop heap with
      | none => rw [hp] at hl; cases hl
      | some p =>
        obtain ⟨left, hl1⟩ := p
        rw [hp] at hl
        dsimp only at hl
        cases hp2 : heappop hl1 with
        | none => rw [hp2] at hl; cases hl
        | some p2 =>
          obtain ⟨right, h2⟩ := p2
          rw [hp2] at hl
          dsimp only at hl
          have e1 := heappop_length heap left hl1 hp
          have e2 := heappop_length hl1 right h2 hp2
          by_cases hcase : heap.length = 2
          · have hh2 : h2 = [] := by
              have : h2.length = 0 := by omega
              exact List.length_eq_zero.mp this
            subst hh2
            have : huffLoop (heappush []
                (.internal (left.freq + right.freq) left right)) = some
                (.internal (left.freq + right.freq) left right) := rfl
            rw [this] at hl
            cases hl
            trivial
          · have e3 := heappush_length h2 (.internal (left.freq + right.freq) left right)
            exact ih (heap.length - 1) (by omega) _ t (by omega) (by omega) hl

/-- A non-empty frequency table always yields a tree. -/
theorem create_huffman_tree_isSome (frequencies : List (Nat × Nat))
    (h : frequencies ≠ []) : (create_huffman_tree frequencies).isSome := by
  unfold create_huffman_tree
  apply huffLoop_isSome (heapify (frequencies.map fun p => Node.leaf p.1 p.2)).length _ rfl
  intro he
  have := heapify_length (frequencies.map fun p => Node.leaf p.1 p.2)
  rw [he] at this
  simp at this
  exact h (List.length_eq_zero.mp this.symm)

theorem flatten_map_leaf_keys (l : List (Nat × Nat)) :
    heapLeaves (l.map fun p => Node.leaf p.1 p.2) = l.map Prod.fst := by
  induction l with
  | nil => rfl
  | cons p t ih =>
    simp only [List.map_cons, heapLeaves_cons] at *
    rw [ih]
    rfl

/-- The leaves of the constructed tree are exactly the table's byte values,
up to order. -/
theorem create_huffman_tree_leaves (frequencies : List (Nat × Nat)) (t : Node)
    (h : create_huffman_tree frequencies = some t) :
    t.leaves.Perm (frequencies.map Prod.fst) := by
  unfold create_huffman_tree at h
  have h1 := huffLoop_leaves (heapify (frequencies.map fun p => Node.leaf p.1 p.2)).length
    _ t rfl h
  refine h1.trans ?_
  refine (heapLeaves_perm (heapify_perm _)).trans ?_
  rw [flatten_map_leaf_keys]

/-- With at least two table entries the root is an internal node. -/
theorem create_huffman_tree_internal (frequencies : List (Nat × Nat)) (t : Node)
    (h2 : 2 ≤ frequencies.length) (h : create_huffman_tree frequencies = some t) :
    t.isInternal := by
  unfold create_huffman_tree at h
  apply huffLoop_internal (heapify (frequencies.map fun p => Node.leaf p.1 p.2)).length
    _ t rfl _ h
  rw [heapify_length]
  simpa using h2

/-! ## Properties of `generate_codes` -/

theorem generate_codes_keys (t : Node) : ∀ (pre : List Bool),
    (generate_codes t pre).map Prod.fst = t.leaves := by
  induction t with
  | leaf b f => intro pre; rfl
  | internal f l r ihl ihr =>
    intro pre
    simp only [generate_codes, List.map_append, ihl, ihr, Node.leaves]

/-- A bit string is a valid path for byte `b` in a tree when it runs
through internal nodes only and ends exactly at a leaf labelled `b`. -/
def goodPath : Node → List Bool → Nat → Prop
  | .leaf b2 _, [], b => b2 = b
  | .leaf _ _, _ :: _, _ => False
  | .internal _ _ _, [], _ => False
  | .internal _ l r, bit :: c, b => goodPath (if bit then r else l) c b

theorem generate_codes_goodPath (t : Node) : ∀ (pre : List Bool) (b : Nat)
    (c : List Bool), (b, c) ∈ generate_codes t pre →
    ∃ c2, c = pre ++ c2 ∧ goodPath t c2 b := by
  induction t with
  | leaf b2 f =>
    intro pre b c hmem
    simp only [generate_codes, List.mem_singleton, Prod.mk.injEq] at hmem
    exact ⟨[], by simp [hmem.2], by simp [goodPath, hmem.1]⟩
  | internal f l r ihl ihr =>
    intro pre b c hmem
    simp only [generate_codes, List.mem_append] at hmem
    rcases hmem with hmem | hmem
    · obtain ⟨c2, hc, hg⟩ := ihl (pre ++ [false]) b c hmem
      exact ⟨false :: c2, by simp [hc], by simpa [goodPath] using hg⟩
    · obtain ⟨c2, hc, hg⟩ := ihr (pre ++ [true]) b c hmem
      exact ⟨true :: c2, by simp [hc], by simpa [goodPath] using hg⟩

theorem pref_append_cancel (p : List Bool) : ∀ (x y : List Bool),
    p ++ x <+: p ++ y → x <+: y := by
  induction p with
  | nil => intro x y h; exact h
  | cons a t ih =>
    intro x y h
    simp only [List.cons_append, List.cons_prefix_cons] at h
    exact ih x y h.2

/-- Codes hanging off different branch directions are never prefixes of
one another. -/
theorem branch_not_pref (pre x y : List Bool) (b1 b2 : Bool) (hne12 : b1 ≠ b2) :
    ¬ ((pre ++ [b1]) ++ x <+: (pre ++ [b2]) ++ y) := by
  intro h
  rw [List.append_assoc, List.append_assoc] at h
  have := pref_append_cancel pre _ _ h
  simp only [List.singleton_append, List.cons_prefix_cons] at this
  exact hne12 this.1

theorem generate_codes_pairwise (t : Node) : ∀ (pre : List Bool),
    (generate_codes t pre).Pairwise
      (fun e1 e2 => ¬ (e1.2 <+: e2.2) ∧ ¬ (e2.2 <+: e1.2)) := by
  induction t with
  | leaf b f => intro pre; simp [generate_codes]
  | internal f l r ihl ihr =>
    intro pre
    simp only [generate_codes]
    rw [List.pairwise_append]
    refine ⟨ihl _, ihr _, ?_⟩
    intro e1 h1 e2 h2
    obtain ⟨c1, hc1, _⟩ := generate_codes_goodPath l _ e1.1 e1.2 h1
    obtain ⟨c2, hc2, _⟩ := generate_codes_goodPath r _ e2.1 e2.2 h2
    rw [hc1, hc2]
    constructor
    · exact branch_not_pref pre c1 c2 false true (by simp)
    · exact branch_not_pref pre c2 c1 true false (by simp)

/-! ## Properties of the decoding loop -/

theorem decode_goodPath (root : Node) (b : Nat) : ∀ (c : List Bool) (t : Node),
    goodPath t c b → c ≠ [] → t.isInternal → ∀ (rest : List Bool),
    decode_loop root (c ++ rest) t
      = (decode_loop root rest root).map (fun out => b :: out) := by
  intro c
  induction c with
  | nil => intro t hg hc; exact absurd rfl hc
  | cons bit c2 ih =>
    intro t hg hc hint rest
    cases t with
    | leaf b2 f => exact absurd hint (by simp [Node.isInternal])
    | internal f l r =>
      simp only [goodPath] at hg
      cases c2 with
      | nil =>
        cases hchild : (if bit then r else l) with
        | leaf b2 f2 =>
          rw [hchild] at hg
          simp only [goodPath] at hg
          subst hg
          simp only [List.cons_append, List.nil_append, decode_loop]
          rw [hchild]
          rfl
        | internal f2 l2 r2 =>
          rw [hchild] at hg
          simp only [goodPath] at hg
      | cons bit2 c3 =>
        cases hchild : (if bit then r else l) with
        | leaf b2 f2 =>
          rw [hchild] at hg
          simp only [goodPath] at hg
        | internal f2 l2 r2 =>
          rw [hchild] at hg
          simp only [List.cons_append, decode_loop]
          rw [hchild]
          exact ih (.internal f2 l2 r2) hg (by simp) (by trivial) rest

theorem lookup_goodPath (root : Node) (hint : root.isInternal) (b : Nat)
    (c : List Bool) (h : (generate_codes root []).lookup b = some c) :
    goodPath root c b ∧ c ≠ [] := by
  obtain ⟨l1, l2, hsplit, _⟩ := List.lookup_eq_some_iff.mp h
  have hmem : (b, c) ∈ generate_codes root [] := by
    rw [hsplit]
    simp
  obtain ⟨c2, hc, hg⟩ := generate_codes_goodPath root [] b c hmem
  simp only [List.nil_append] at hc
  subst hc
  refine ⟨hg, ?_⟩
  intro hnil
  subst hnil
  cases root with
  | leaf b2 f => exact hint
  | internal f l r => exact hg

/-- Decoding inverts encoding: the concatenation of looked-up codes decodes
back to the original byte list. -/
theorem decode_encodeData (root : Node) (hint : root.isInternal) :
    ∀ (data : List Nat) (bits : List Bool),
    encodeData (generate_codes root []) data = some bits →
    decode_loop root bits root = some data := by
  intro data
  induction data with
  | nil =>
    intro bits h
    cases h
    rfl
  | cons b rest ih =>
    intro bits h
    simp only [encodeData, Option.bind_eq_bind, Option.bind_eq_some] at h
    obtain ⟨c, hc, bits2, hbits2, hb⟩ := h
    cases hb
    obtain ⟨hg, hne⟩ := lookup_goodPath root hint b c hc
    rw [decode_goodPath root b c root hg hne hint bits2, ih bits2 hbits2]
    rfl

/-- The decoding loop never fails when the tree root is internal: when the
bits run out mid-traversal it silently returns what was decoded so far. -/
theorem decode_loop_isSome (root : Node) (hroot : root.isInternal) :
    ∀ (bits : List Bool) (t : Node), t.isInternal →
    ∃ out, decode_loop root bits t = some out := by
  intro bits
  induction bits with
  | nil => intro t _; exact ⟨[], rfl⟩
  | cons bit rest ih =>
    intro t hint
    cases t with
    | leaf b f => exact absurd hint (by simp [Node.isInternal])
    | internal f l r =>
      simp only [decode_loop]
      cases hchild : (if bit then r else l) with
      | leaf b2 f2 =>
        obtain ⟨out, hout⟩ := ih root hroot
        exact ⟨b2 :: out, by rw [hout]; rfl⟩
      | internal f2 l2 r2 =>
        exact ih (.internal f2 l2 r2) (by trivial)

/-! ## Properties of `Counter` -/

theorem incr_keys (b : Nat) : ∀ (l : List (Nat × Nat)),
    (incr l b).map Prod.fst =
      if b ∈ l.map Prod.fst then l.map Prod.fst else l.map Prod.fst ++ [b] := by
  intro l
  induction l with
  | nil => rfl
  | cons p t ih =>
    obtain ⟨k, v⟩ := p
    simp only [incr]
    by_cases hk : k = b
    · subst hk
      simp
    · simp only [if_neg hk, List.map_cons, ih]
      by_cases hb : b ∈ t.map Prod.fst
      · simp [hb, Ne.symm hk]
      · simp [hb, Ne.symm hk]

theorem incr_ne_nil (l : List (Nat × Nat)) (b : Nat) : incr l b ≠ [] := by
  cases l with
  | nil => simp [incr]
  | cons p t =>
    obtain ⟨k, v⟩ := p
    simp only [incr]
    split <;> simp

theorem foldl_incr_ne_nil (l : List Nat) : ∀ (acc : List (Nat × Nat)),
    acc ≠ [] → l.foldl incr acc ≠ [] := by
  induction l with
  | nil => intro acc h; exact h
  | cons a t ih =>
    intro acc h
    exact ih (incr acc a) (incr_ne_nil acc a)

theorem counter_ne_nil (data : List Nat) (h : data ≠ []) : counter data ≠ [] := by
  cases data with
  | nil => exact absurd rfl h
  | cons a t =>
    unfold counter
    simp only [List.foldl_cons]
    exact foldl_incr_ne_nil t (incr [] a) (incr_ne_nil [] a)

theorem incr_keys_sub (l : List (Nat × Nat)) (b x : Nat)
    (h : x ∈ (incr l b).map Prod.fst) : x ∈ l.map Prod.fst ∨ x = b := by
  rw [incr_keys] at h
  split at h
  · exact Or.inl h
  · rcases List.mem_append.mp h with h | h
    · exact Or.inl h
    · exact Or.inr (by simpa using h)

theorem incr_keys_mem (l : List (Nat × Nat)) (b x : Nat)
    (h : x ∈ l.map Prod.fst ∨ x = b) : x ∈ (incr l b).map Prod.fst := by
  rw [incr_keys]
  split
  · rcases h with h | h
    · exact h
    · subst h; assumption
  · rcases h with h | h
    · exact List.mem_append.mpr (Or.inl h)
    · subst h; simp

theorem foldl_incr_keys_mem (l : List Nat) : ∀ (acc : List (Nat × Nat)) (x : Nat),
    (x ∈ acc.map Prod.fst ∨ x ∈ l) → x ∈ (l.foldl incr acc).map Prod.fst := by
  induction l with
  | nil =>
    intro acc x h
    rcases h with h | h
    · exact h
    · simp at h
  | cons a t ih =>
    intro acc x h
    simp only [List.foldl_cons]
    apply ih
    rcases h with h | h
    · exact Or.inl (incr_keys_mem acc a x (Or.inl h))
    · rcases List.mem_cons.mp h with h | h
      · exact Or.inl (incr_keys_mem acc a x (Or.inr h))
      · exact Or.inr h

/-- Every input byte has an entry in its frequency table. -/
theorem counter_mem (data : List Nat) (x : Nat) (h : x ∈ data) :
    x ∈ (counter data).map Prod.fst := by
  exact foldl_incr_keys_mem data [] x (Or.inr h)

theorem incr_mem_orig (l : List (Nat × Nat)) (b : Nat) (p : Nat × Nat)
    (h : p ∈ incr l b) : p ∈ l ∨ p.1 = b := by
  induction l with
  | nil =>
    simp only [incr, List.mem_singleton] at h
    subst h
    exact Or.inr rfl
  | cons q t ih =>
    obtain ⟨k, v⟩ := q
    simp only [incr] at h
    split at h
    · rename_i hk
      subst hk
      rcases List.mem_cons.mp h with h | h
      · subst h; exact Or.inr rfl
      · exact Or.inl (List.mem_cons_of_mem _ h)
    · rcases List.mem_cons.mp h with h | h
      · subst h; exact Or.inl (List.mem_cons_self _ _)
      · rcases ih h with h | h
        · exact Or.inl (List.mem_cons_of_mem _ h)
        · exact Or.inr h

theorem foldl_incr_entry_src (l : List Nat) : ∀ (acc : List (Nat × Nat))
    (p : Nat × Nat), p ∈ l.foldl incr acc → p ∈ acc ∨ p.1 ∈ l := by
  induction l with
  | nil => intro acc p h; exact Or.inl h
  | cons a t ih =>
    intro acc p h
    simp only [List.foldl_cons] at h
    rcases ih (incr acc a) p h with h | h
    · rcases incr_mem_orig acc a p h with h | h
      · exact Or.inl h
      · exact Or.inr (by simp [h])
    · exact Or.inr (List.mem_cons_of_mem _ h)

/-- Every key of the frequency table occurs in the input. -/
theorem counter_keys_src (data : List Nat) (p : Nat × Nat)
    (h : p ∈ counter data) : p.1 ∈ data := by
  rcases foldl_incr_entry_src data [] p h with h | h
  · simp at h
  · exact h

theorem incr_values_le (l : List (Nat × Nat)) (b : Nat) (k : Nat)
    (hb : ∀ p ∈ l, p.2 ≤ k) : ∀ p ∈ incr l b, p.2 ≤ k + 1 := by
  induction l with
  | nil =>
    intro p hp
    simp only [incr, List.mem_singleton] at hp
    subst hp
    omega
  | cons q t ih =>
    obtain ⟨k2, v⟩ := q
    intro p hp
    simp only [incr] at hp
    split at hp
    · rcases List.mem_cons.mp hp with hp | hp
      · subst hp
        have := hb (k2, v) (List.mem_cons_self _ _)
        simp at this ⊢
        omega
      · have := hb p (List.mem_cons_of_mem _ hp)
        omega
    · rcases List.mem_cons.mp hp with hp | hp
      · subst hp
        have := hb (k2, v) (List.mem_cons_self _ _)
        simp at this ⊢
        omega
      · exact ih (fun q hq => hb q (List.mem_cons_of_mem _ hq)) p hp

theorem foldl_incr_values_le (l : List Nat) : ∀ (acc : List (Nat × Nat)) (k : Nat),
    (∀ p ∈ acc, p.2 ≤ k) → ∀ p ∈ l.foldl incr acc, p.2 ≤ k + l.length := by
  induction l with
  | nil =>
    intro acc k hacc p hp
    simpa using hacc p hp
  | cons a t ih =>
    intro acc k hacc p hp
    simp only [List.foldl_cons] at hp
    have := ih (incr acc a) (k + 1) (incr_values_le acc a k hacc) p hp
    simp only [List.length_cons]
    omega

/-- Each stored frequency is at most the input length. -/
theorem counter_values_le (data : List Nat) (p : Nat × Nat)
    (h : p ∈ counter data) : p.2 ≤ data.length := by
  have := foldl_incr_values_le data [] 0 (by simp) p h
  omega

theorem incr_keys_nodup (l : List (Nat × Nat)) (b : Nat)
    (h : (l.map Prod.fst).Nodup) : ((incr l b).map Prod.fst).Nodup := by
  rw [incr_keys]
  split
  · exact h
  · rename_i hb
    rw [List.nodup_append]
    exact ⟨h, List.nodup_singleton _, by simpa using hb⟩

theorem foldl_incr_keys_nodup (l : List Nat) : ∀ (acc : List (Nat × Nat)),
    (acc.map Prod.fst).Nodup → ((l.foldl incr acc).map Prod.fst).Nodup := by
  induction l with
  | nil => intro acc h; exact h
  | cons a t ih =>
    intro acc h
    exact ih (incr acc a) (incr_keys_nodup acc a h)

/-- The keys of a frequency table are distinct. -/
theorem counter_keys_nodup (data : List Nat) :
    ((counter data).map Prod.fst).Nodup :=
  foldl_incr_keys_nodup data [] (by simp)

theorem two_mem_length {l : List Nat} {x y : Nat} (hx : x ∈ l) (hy : y ∈ l)
    (hxy : x ≠ y) : 2 ≤ l.length := by
  cases l with
  | nil => simp at hx
  | cons a t =>
    cases t with
    | nil =>
      simp at hx hy
      subst hx
      exact absurd hy.symm hxy
    | cons b t2 => simp

/-- A list of distinct naturals all below `n` has at most `n` elements. -/
theorem nodup_bounded_length (l : List Nat) (n : Nat) (hnd : l.Nodup)
    (hb : ∀ x ∈ l, x < n) : l.length ≤ n := by
  have h1 : l.toFinset.card = l.length := List.toFinset_card_of_nodup hnd
  have h2 : l.toFinset ⊆ Finset.range n := by
    intro x hx
    rw [List.mem_toFinset] at hx
    rw [Finset.mem_range]
    exact hb x hx
  have := Finset.card_le_card h2
  rw [h1, Finset.card_range] at this
  exact this

/-! ## Correctness of the bit and byte conversions -/

/-- Fixed-width binary rendering, most significant bit first. -/
def toBitsW : Nat → Nat → List Bool
  | 0, _ => []
  | k + 1, n => toBitsW k (n / 2) ++ [decide (n % 2 = 1)]

theorem toBitsW_zero : ∀ (k : Nat), toBitsW k 0 = List.replicate k false := by
  intro k
  induction k with
  | zero => rfl
  | succ k ih =>
    show toBitsW k (0 / 2) ++ [decide (0 % 2 = 1)] = _
    rw [Nat.zero_div, ih, List.replicate_succ']
    rfl

theorem natToBits_length_pos (n : Nat) : 1 ≤ (natToBits n).length := by
  rw [natToBits_eq]
  split
  · simp
  · simp

theorem natToBits_length_le : ∀ (k n : Nat), 1 ≤ k → n < 2 ^ k →
    (natToBits n).length ≤ k := by
  intro k
  induction k with
  | zero => omega
  | succ k ih =>
    intro n _ hn
    rw [natToBits_eq]
    split
    · simp
    · rename_i h2
      have hdiv : n / 2 < 2 ^ k := by
        rw [Nat.pow_succ] at hn
        omega
      have hk : 1 ≤ k := by
        by_contra hk0
        have : k = 0 := by omega
        subst this
        simp at hdiv
        omega
      have := ih (n / 2) hk hdiv
      simp only [List.length_append, List.length_cons, List.length_nil]
      omega

theorem replicate_natToBits_eq_toBitsW : ∀ (k n : Nat),
    (natToBits n).length ≤ k →
    List.replicate (k - (natToBits n).length) false ++ natToBits n = toBitsW k n := by
  intro k
  induction k with
  | zero =>
    intro n hn
    have := natToBits_length_pos n
    omega
  | succ k ih =>
    intro n hn
    by_cases h2 : n < 2
    · have hval : natToBits n = [decide (n = 1)] := by rw [natToBits_eq, if_pos h2]
      have hdiv : n / 2 = 0 := by omega
      have hmod : decide (n % 2 = 1) = decide (n = 1) := by
        have hcase : n = 0 ∨ n = 1 := by omega
        rcases hcase with h | h <;> subst h <;> rfl
      show _ = toBitsW k (n / 2) ++ [decide (n % 2 = 1)]
      rw [hval, hdiv, toBitsW_zero, hmod]
      simp [List.replicate_succ']
    · have hval : natToBits n = natToBits (n / 2) ++ [decide (n % 2 = 1)] := by
        rw [natToBits_eq, if_neg h2]
      have hlen : (natToBits n).length = (natToBits (n / 2)).length + 1 := by
        rw [hval]; simp
      rw [hlen] at hn
      have hle : (natToBits (n / 2)).length ≤ k := by omega
      show _ = toBitsW k (n / 2) ++ [decide (n % 2 = 1)]
      rw [hval]
      simp only [List.length_append, List.length_cons, List.length_nil]
      rw [← List.append_assoc]
      have heq : k + 1 - ((natToBits (n / 2)).length + 0 + 1)
          = k - (natToBits (n / 2)).length := by omega
      rw [heq, ih (n / 2) hle]

theorem bitsToNat_append_singleton (d : List Bool) (b : Bool) :
    bitsToNat (d ++ [b]) = 2 * bitsToNat d + cond b 1 0 := by
  unfold bitsToNat
  rw [List.foldl_append]
  rfl

theorem bitsToNat_lt : ∀ (k : Nat) (c : List Bool), c.length = k →
    bitsToNat c < 2 ^ k := by
  intro k
  induction k with
  | zero =>
    intro c hc
    rw [List.length_eq_zero.mp hc]
    simp [bitsToNat]
  | succ k ih =>
    intro c hc
    rcases List.eq_nil_or_concat c with rfl | ⟨d, b, rfl⟩
    · simp at hc
    · rw [List.concat_eq_append] at *
      rw [bitsToNat_append_singleton]
      have hd : d.length = k := by
        simp only [List.length_append, List.length_cons, List.length_nil] at hc
        omega
      have := ih d hd
      rw [Nat.pow_succ]
      cases b <;> simp <;> omega

theorem toBitsW_bitsToNat : ∀ (k : Nat) (c : List Bool), c.length = k →
    toBitsW k (bitsToNat c) = c := by
  intro k
  induction k with
  | zero =>
    intro c hc
    rw [List.length_eq_zero.mp hc]
    rfl
  | succ k ih =>
    intro c hc
    rcases List.eq_nil_or_concat c with rfl | ⟨d, b, rfl⟩
    · simp at hc
    · rw [List.concat_eq_append] at *
      have hd : d.length = k := by
        simp only [List.length_append, List.length_cons, List.length_nil] at hc
        omega
      rw [bitsToNat_append_singleton]
      show toBitsW k ((2 * bitsToNat d + cond b 1 0) / 2)
          ++ [decide ((2 * bitsToNat d + cond b 1 0) % 2 = 1)] = d ++ [b]
      have hdiv : (2 * bitsToNat d + cond b 1 0) / 2 = bitsToNat d := by
        cases b <;> simp <;> omega
      have hmod : decide ((2 * bitsToNat d + cond b 1 0) % 2 = 1) = b := by
        cases b <;> simp [Nat.add_mul_mod_self_left] <;> omega
      rw [hdiv, hmod, ih d hd]

/-- An eight-bit chunk surviving a byte round-trip. -/
theorem byteToBits_bitsToNat (c : List Bool) (hc : c.length = 8) :
    byteToBits (bitsToNat c) = c := by
  unfold byteToBits
  have hlt : bitsToNat c < 2 ^ 8 := bitsToNat_lt 8 c hc
  have hle : (natToBits (bitsToNat c)).length ≤ 8 := by
    exact natToBits_length_le 8 (bitsToNat c) (by omega) hlt
  rw [replicate_natToBits_eq_toBitsW 8 (bitsToNat c) hle]
  exact toBitsW_bitsToNat 8 c hc

theorem bits_to_bytes_ge8 (s : List Bool) (h : 8 ≤ s.length) :
    bits_to_bytes s = bitsToNat (s.take 8) :: bits_to_bytes (s.drop 8) := by
  rcases s with _ | ⟨a, s⟩; · simp at h
  rcases s with _ | ⟨b, s⟩; · simp at h
  rcases s with _ | ⟨c, s⟩; · simp at h
  rcases s with _ | ⟨d, s⟩; · simp at h
  rcases s with _ | ⟨e, s⟩; · simp at h
  rcases s with _ | ⟨f, s⟩; · simp at h
  rcases s with _ | ⟨g, s⟩; · simp at h
  rcases s with _ | ⟨k, s⟩; · simp at h
  rfl

/-- Bytes-to-bits inverts bits-to-bytes on byte-aligned bit strings. -/
theorem bytes_to_bits_bits_to_bytes : ∀ (m : Nat) (s : List Bool),
    s.length = m → s.length % 8 = 0 →
    bytes_to_bits (bits_to_bytes s) = s := by
  intro m
  induction m using Nat.strong_induction_on with
  | _ m ih =>
    intro s hm h8
    rcases Nat.eq_zero_or_pos m with hz | hpos
    · subst hz
      rw [List.length_eq_zero.mp hm]
      rfl
    · have h8le : 8 ≤ s.length := by omega
      rw [bits_to_bytes_ge8 s h8le]
      show byteToBits (bitsToNat (s.take 8)) ++ bytes_to_bits (bits_to_bytes (s.drop 8)) = s
      have htake : (s.take 8).length = 8 := by
        rw [List.length_take]
        omega
      rw [byteToBits_bitsToNat (s.take 8) htake]
      have hdroplen : (s.drop 8).length = m - 8 := by
        rw [List.length_drop]
        omega
      rw [ih (m - 8) (by omega) (s.drop 8) hdroplen (by rw [hdroplen]; omega)]
      exact List.take_append_drop 8 s

/-! ## Correctness of the integer serialization -/

theorem toBytesAux_length : ∀ (k n : Nat), (toBytesAux n k).length = k := by
  intro k
  induction k with
  | zero => intro n; rfl
  | succ k ih =>
    intro n
    show (toBytesAux (n / 256) k ++ [n % 256]).length = k + 1
    rw [List.length_append, ih]
    rfl

theorem from_bytes_append_singleton (l : List Nat) (b : Nat) :
    from_bytes (l ++ [b]) = 256 * from_bytes l + b := by
  unfold from_bytes
  rw [List.foldl_append]
  rfl

theorem from_bytes_toBytesAux : ∀ (k n : Nat), n < 256 ^ k →
    from_bytes (toBytesAux n k) = n := by
  intro k
  induction k with
  | zero =>
    intro n hn
    have : n = 0 := by simpa using hn
    subst this
    rfl
  | succ k ih =>
    intro n hn
    show from_bytes (toBytesAux (n / 256) k ++ [n % 256]) = n
    rw [from_bytes_append_singleton]
    have hdiv : n / 256 < 256 ^ k := by
      rw [Nat.pow_succ] at hn
      exact Nat.div_lt_of_lt_mul (by omega)
    rw [ih (n / 256) hdiv]
    omega

/-! ## Container record serialization round-trip -/

theorem recordsBytes_spec : ∀ (freqs : List (Nat × Nat)),
    (∀ p ∈ freqs, p.1 < 256 ∧ p.2 < 2 ^ 32) →
    ∃ rb, recordsBytes freqs = some rb ∧ rb.length = 5 * freqs.length := by
  intro freqs
  induction freqs with
  | nil => intro _; exact ⟨[], rfl, rfl⟩
  | cons p rest ih =>
    intro hbound
    obtain ⟨b, f⟩ := p
    obtain ⟨hb, hf⟩ := hbound (b, f) (List.mem_cons_self _ _)
    obtain ⟨rb, hrb, hrblen⟩ := ih (fun q hq => hbound q (List.mem_cons_of_mem _ hq))
    have hf4 : f < 256 ^ 4 := by
      have : (256 : Nat) ^ 4 = 2 ^ 32 := by norm_num
      omega
    refine ⟨[b] ++ toBytesAux f 4 ++ rb, ?_, ?_⟩
    · simp only [recordsBytes, Option.bind_eq_bind]
      rw [if_pos hb]
      simp only [to_bytes, if_pos hf4]
      rw [hrb]
      rfl
    · simp only [List.length_append, List.length_cons, List.length_nil, hrblen,
        toBytesAux_length]
      omega

theorem readRecords_spec : ∀ (freqs : List (Nat × Nat)) (rb tail : List Nat),
    (∀ p ∈ freqs, p.2 < 2 ^ 32) → recordsBytes freqs = some rb →
    readRecords freqs.length (rb ++ tail) = some (freqs, tail) := by
  intro freqs
  induction freqs with
  | nil =>
    intro rb tail _ hrb
    cases hrb
    rfl
  | cons p rest ih =>
    intro rb tail hbound hrb
    obtain ⟨b, f⟩ := p
    by_cases hblt : b < 256
    · simp only [recordsBytes, Option.bind_eq_bind, if_pos hblt, Option.some_bind,
        to_bytes, Option.pure_def, Option.bind_eq_some,
        Option.ite_none_right_eq_some, Option.some.injEq] at hrb
      obtain ⟨fb, ⟨hf4, rfl⟩, rb2, hrb2, hcat⟩ := hrb
      subst hcat
      show readRecords (rest.length + 1) (([b] ++ toBytesAux f 4 ++ rb2) ++ tail)
        = some ((b, f) :: rest, tail)
      simp only [readRecords, Option.bind_eq_bind]
      have hshape : ([b] ++ toBytesAux f 4 ++ rb2) ++ tail
          = b :: (toBytesAux f 4 ++ (rb2 ++ tail)) := by
        simp
      rw [hshape]
      simp only [List.head?_cons, Option.some_bind, List.drop_succ_cons, List.drop_zero]
      have htake : (toBytesAux f 4 ++ (rb2 ++ tail)).take 4 = toBytesAux f 4 :=
        List.take_left' (toBytesAux_length 4 f)
      have hdrop : (toBytesAux f 4 ++ (rb2 ++ tail)).drop 4 = rb2 ++ tail :=
        List.drop_left' (toBytesAux_length 4 f)
      rw [htake, hdrop]
      rw [ih rb2 tail (fun q hq => hbound q (List.mem_cons_of_mem _ hq)) hrb2]
      rw [from_bytes_toBytesAux 4 f hf4]
      rfl
    · simp only [recordsBytes, Option.bind_eq_bind, if_neg hblt, Option.none_bind] at hrb
      cases hrb

/-! ## Encoding succeeds for bytes present in the codebook -/

theorem encodeData_isSome (codes : List (Nat × List Bool)) :
    ∀ (data : List Nat), (∀ b ∈ data, b ∈ codes.map Prod.fst) →
    ∃ bits, encodeData codes data = some bits := by
  intro data
  induction data with
  | nil => intro _; exact ⟨[], rfl⟩
  | cons b rest ih =>
    intro hmem
    have hb := hmem b (List.mem_cons_self _ _)
    have hlk : (codes.lookup b).isSome := by
      rw [List.lookup_isSome_iff]
      obtain ⟨p, hp, hp1⟩ := List.mem_map.mp hb
      exact ⟨p, hp, by simp [hp1]⟩
    obtain ⟨c, hc⟩ := Option.isSome_iff_exists.mp hlk
    obtain ⟨bits, hbits⟩ := ih (fun x hx => hmem x (List.mem_cons_of_mem _ hx))
    refine ⟨c ++ bits, ?_⟩
    simp only [encodeData, Option.bind_eq_bind, hc, hbits, Option.some_bind]
    rfl

/-! ## Structure of a successful compression -/

theorem counter_keys_lt (data : List Nat) (hb : ∀ b ∈ data, b < 256) :
    ∀ x ∈ (counter data).map Prod.fst, x < 256 := by
  intro x hx
  obtain ⟨p, hp, hp1⟩ := List.mem_map.mp hx
  subst hp1
  exact hb p.1 (counter_keys_src data p hp)

theorem counter_length_le (data : List Nat) (hb : ∀ b ∈ data, b < 256) :
    (counter data).length ≤ 256 := by
  have h := nodup_bounded_length ((counter data).map Prod.fst) 256
    (counter_keys_nodup data) (counter_keys_lt data hb)
  simpa using h

/-- A successful run of `compress_file` and the exact shape of the container
it writes.  The hypotheses are exactly the conditions under which the
Python code raises no exception while writing: a non-empty input (else
`create_huffman_tree` fails) whose length fits the four-byte frequency
fields. -/
theorem compress_file_spec (data : List Nat) (hne : data ≠ [])
    (hb : ∀ b ∈ data, b < 256) (hlen : data.length < 2 ^ 32) :
    ∃ (t : Node) (bits : List Bool) (rb : List Nat),
      create_huffman_tree (counter data) = some t ∧
      encodeData (generate_codes t []) data = some bits ∧
      recordsBytes (counter data) = some rb ∧
      rb.length = 5 * (counter data).length ∧
      (counter data).length ≤ 256 ∧
      compress_file data =
        some (toBytesAux (counter data).length 2 ++ rb
          ++ [pad_amount bits.length]
          ++ bits_to_bytes (bits ++ List.replicate (pad_amount bits.length) false)) := by
  have hcne : counter data ≠ [] := counter_ne_nil data hne
  obtain ⟨t, ht⟩ := Option.isSome_iff_exists.mp (create_huffman_tree_isSome _ hcne)
  have hleaves := create_huffman_tree_leaves (counter data) t ht
  have hmemcodes : ∀ b ∈ data, b ∈ (generate_codes t []).map Prod.fst := by
    intro b hbd
    rw [generate_codes_keys]
    rw [hleaves.mem_iff]
    exact counter_mem data b hbd
  obtain ⟨bits, hbits⟩ := encodeData_isSome (generate_codes t []) data hmemcodes
  have hbounds : ∀ p ∈ counter data, p.1 < 256 ∧ p.2 < 2 ^ 32 := by
    intro p hp
    constructor
    · exact hb p.1 (counter_keys_src data p hp)
    · have := counter_values_le data p hp
      omega
  obtain ⟨rb, hrb, hrblen⟩ := recordsBytes_spec (counter data) hbounds
  have hN : (counter data).length ≤ 256 := counter_length_le data hb
  have hto2 : to_bytes (counter data).length 2
      = some (toBytesAux (counter data).length 2) := by
    unfold to_bytes
    rw [if_pos (by norm_num; omega)]
  refine ⟨t, bits, rb, ht, hbits, hrb, hrblen, hN, ?_⟩
  simp only [compress_file, Option.bind_eq_bind, ht, hbits, hrb, hto2,
    Option.some_bind, Option.pure_def]

/-! ## Round-trip: decompression inverts compression -/

theorem pad_amount_pos (len : Nat) : 1 ≤ pad_amount len := by
  unfold pad_amount; omega

theorem pad_amount_le (len : Nat) : pad_amount len ≤ 8 := by
  unfold pad_amount; omega

theorem pad_amount_aligned (len : Nat) : (len + pad_amount len) % 8 = 0 := by
  unfold pad_amount; omega

/-- Decoding a container produced by `compress_file` on an input with at
least two distinct byte values reproduces the input exactly. -/
theorem decompress_compress (data : List Nat) (hb : ∀ b ∈ data, b < 256)
    (hlen : data.length < 2 ^ 32) (htwo : 2 ≤ (counter data).length) :
    ∃ container, compress_file data = some container ∧
      decompress_file container = some data := by
  have hne : data ≠ [] := by
    intro he
    subst he
    simp [counter] at htwo
  obtain ⟨t, bits, rb, ht, hbits, hrb, hrblen, hN, hcomp⟩ :=
    compress_file_spec data hne hb hlen
  have hint : t.isInternal := create_huffman_tree_internal (counter data) t htwo ht
  refine ⟨_, hcomp, ?_⟩
  have hassoc : toBytesAux (counter data).length 2 ++ rb
        ++ [pad_amount bits.length]
        ++ bits_to_bytes (bits ++ List.replicate (pad_amount bits.length) false)
      = toBytesAux (counter data).length 2
        ++ (rb ++ ([pad_amount bits.length]
          ++ bits_to_bytes (bits ++ List.replicate (pad_amount bits.length) false))) := by
    simp [List.append_assoc]
  rw [hassoc]
  have h2 : (toBytesAux (counter data).length 2).length = 2 := toBytesAux_length 2 _
  simp only [decompress_file, Option.bind_eq_bind]
  rw [List.take_left' h2, List.drop_left' h2]
  rw [from_bytes_toBytesAux 2 _ (by norm_num; omega)]
  have hbounds : ∀ p ∈ counter data, p.2 < 2 ^ 32 := by
    intro p hp
    have := counter_values_le data p hp
    omega
  rw [readRecords_spec (counter data) rb _ hbounds hrb]
  simp only [Option.some_bind]
  rw [ht]
  simp only [Option.some_bind, List.singleton_append, List.head?_cons,
    List.drop_succ_cons, List.drop_zero]
  have hpadded : bytes_to_bits (bits_to_bytes
        (bits ++ List.replicate (pad_amount bits.length) false))
      = bits ++ List.replicate (pad_amount bits.length) false := by
    apply bytes_to_bits_bits_to_bytes
      (bits ++ List.replicate (pad_amount bits.length) false).length _ rfl
    simp only [List.length_append, List.length_replicate]
    exact pad_amount_aligned bits.length
  rw [hpadded]
  have hpadne : pad_amount bits.length ≠ 0 := by
    have := pad_amount_pos bits.length
    omega
  rw [if_neg hpadne]
  have hlentotal : (bits ++ List.replicate (pad_amount bits.length) false).length
        - pad_amount bits.length = bits.length := by
    simp only [List.length_append, List.length_replicate]
    omega
  rw [hlentotal, List.take_left' rfl]
  exact decode_encodeData t hint data bits hbits

/-! ## Claim theorems -/

/-- C1 (counterexample): the round-trip identity fails on the single-byte
input `[65]`.  `generate_codes` assigns the single leaf the empty code, so
the payload carries no bits and decompression recovers the empty sequence
instead of `[65]`. -/
theorem C1_roundtrip_counterexample :
    (compress_file [65]).bind decompress_file = some ([] : List Nat)
      ∧ ([] : List Nat) ≠ [65] := by decide

/-- C1 (amended): for every byte sequence with at least two distinct byte
values (and short enough for the four-byte frequency fields),
decompressing the container produced by compression yields exactly the
input, byte for byte. -/
theorem C1_roundtrip_two_distinct (data : List Nat) (hb : ∀ b ∈ data, b < 256)
    (hlen : data.length < 2 ^ 32)
    (htwo : ∃ x ∈ data, ∃ y ∈ data, x ≠ y) :
    ∃ container, compress_file data = some container ∧
      decompress_file container = some data := by
  obtain ⟨x, hx, y, hy, hxy⟩ := htwo
  have h2 : 2 ≤ (counter data).length := by
    have hkx := counter_mem data x hx
    have hky := counter_mem data y hy
    have := two_mem_length hkx hky hxy
    simpa using this
  exact decompress_compress data hb hlen h2

theorem C1_roundtrip_two_distinct_witness :
    ∃ container, compress_file [65, 66] = some container ∧
      decompress_file container = some [65, 66] :=
  C1_roundtrip_two_distinct [65, 66] (by decide) (by decide) (by decide)

/-- C2: for the single-leaf tree built from the single-symbol input
`AAAA`, `generate_codes` assigns byte 65 the empty bit string, not a
reserved one-bit code: each occurrence consumes zero bits in the packed
payload, and the spec's requirement is violated by the code. -/
theorem C2_single_leaf_empty_code :
    create_huffman_tree (counter [65, 65, 65, 65]) = some (Node.leaf 65 4)
      ∧ generate_codes (Node.leaf 65 4) [] = [(65, [])]
      ∧ (65, ([] : List Bool)) ∈ generate_codes (Node.leaf 65 4) [] := by decide

/-- C3 (counterexample): on the input `ABABABAB` the encoded bit string has
length 8, a multiple of eight, and the stored padding count (at offset
`2 + 5•2 = 12`) is 8 — outside the claimed range `[0,7]`, and not the
claimed `(8 - len mod 8) mod 8 = 0`. -/
theorem C3_padding_counterexample :
    compress_file [65, 66, 65, 66, 65, 66, 65, 66]
        = some [0, 2, 65, 0, 0, 0, 4, 66, 0, 0, 0, 4, 8, 170, 0]
      ∧ ([0, 2, 65, 0, 0, 0, 4, 66, 0, 0, 0, 4, 8, 170, 0] : List Nat).getD 12 0 = 8
      ∧ ¬ (([0, 2, 65, 0, 0, 0, 4, 66, 0, 0, 0, 4, 8, 170, 0] : List Nat).getD 12 0 ≤ 7) := by
  decide

theorem getD_append_length (e x : List Nat) : (e ++ x).getD e.length 0 = x.getD 0 0 := by
  simp [List.getD_eq_getElem?_getD, List.getElem?_append_right (Nat.le_refl _)]

/-- C3 (amended): the pack step appends exactly `8 - len mod 8` zero bits
(eight of them when the bit string is already byte-aligned), so the stored
padding count lies in `[1,8]`, equals 8 exactly when the unpadded length is
a multiple of eight, and the padded length is always a multiple of
eight. -/
theorem C3_padding_amended (data : List Nat) (hne : data ≠ [])
    (hb : ∀ b ∈ data, b < 256) (hlen : data.length < 2 ^ 32) :
    ∃ (t : Node) (bits : List Bool) (container : List Nat),
      create_huffman_tree (counter data) = some t ∧
      encodeData (generate_codes t []) data = some bits ∧
      compress_file data = some container ∧
      container.getD (2 + 5 * (counter data).length) 0 = pad_amount bits.length ∧
      pad_amount bits.length = 8 - bits.length % 8 ∧
      1 ≤ pad_amount bits.length ∧ pad_amount bits.length ≤ 8 ∧
      (pad_amount bits.length = 8 ↔ bits.length % 8 = 0) ∧
      (bits.length + pad_amount bits.length) % 8 = 0 := by
  obtain ⟨t, bits, rb, ht, hbits, hrb, hrblen, hN, hcomp⟩ :=
    compress_file_spec data hne hb hlen
  refine ⟨t, bits, _, ht, hbits, hcomp, ?_, rfl, pad_amount_pos _, pad_amount_le _,
    by unfold pad_amount; omega, pad_amount_aligned _⟩
  have hshape : toBytesAux (counter data).length 2 ++ rb ++ [pad_amount bits.length]
        ++ bits_to_bytes (bits ++ List.replicate (pad_amount bits.length) false)
      = (toBytesAux (counter data).length 2 ++ rb)
        ++ ([pad_amount bits.length]
          ++ bits_to_bytes (bits ++ List.replicate (pad_amount bits.length) false)) := by
    simp [List.append_assoc]
  rw [hshape]
  have hlen2 : (toBytesAux (counter data).length 2 ++ rb).length
      = 2 + 5 * (counter data).length := by
    simp [toBytesAux_length, hrblen]
  rw [← hlen2, getD_append_length]
  rfl

theorem C3_padding_amended_witness :
    ∃ (t : Node) (bits : List Bool) (container : List Nat),
      create_huffman_tree (counter [65, 66]) = some t ∧
      encodeData (generate_codes t []) [65, 66] = some bits ∧
      compress_file [65, 66] = some container ∧
      container.getD (2 + 5 * (counter [65, 66]).length) 0 = pad_amount bits.length ∧
      pad_amount bits.length = 8 - bits.length % 8 ∧
      1 ≤ pad_amount bits.length ∧ pad_amount bits.length ≤ 8 ∧
      (pad_amount bits.length = 8 ↔ bits.length % 8 = 0) ∧
      (bits.length + pad_amount bits.length) % 8 = 0 :=
  C3_padding_amended [65, 66] (by decide) (by decide) (by decide)

/-- C4: compressing the empty input does not succeed with an `N = 0`
container: `create_huffman_tree` hits `heap[0]` on an empty heap
(`IndexError`) and the whole compression crashes before writing anything;
decoding the container the claim describes (`[0, 0, 0]`) crashes the same
way. -/
theorem C4_empty_input_crash :
    compress_file [] = none
      ∧ create_huffman_tree (counter []) = none
      ∧ decompress_file [0, 0, 0] = none := by decide

/-- C5 (counterexample): a container whose stripped payload bits end in the
middle of a code.  The seven kept bits `0011101` decode as
`0`, `0`, `11`, `10` (bytes 65, 65, 66, 67) with a dangling final `1` that
stops on an internal node; decoding nevertheless succeeds silently instead
of failing: re-encoding the emitted bytes uses only six bits, one fewer
than was consumed from the stream. -/
theorem C5_truncated_counterexample :
    decompress_file [0, 3, 65, 0, 0, 0, 2, 66, 0, 0, 0, 1, 67, 0, 0, 0, 1, 1, 58]
        = some [65, 65, 66, 67]
      ∧ create_huffman_tree [(65, 2), (66, 1), (67, 1)]
        = some (Node.internal 4 (Node.leaf 65 2)
            (Node.internal 2 (Node.leaf 67 1) (Node.leaf 66 1)))
      ∧ encodeData (generate_codes (Node.internal 4 (Node.leaf 65 2)
            (Node.internal 2 (Node.leaf 67 1) (Node.leaf 66 1))) [])
          [65, 65, 66, 67]
        = some [false, false, true, true, true, false] := by decide

/-- C5 (amended): the decode loop never raises an error when the rebuilt
tree has an internal root: whatever the bit sequence — including one that
stops in the middle of a traversal — it returns the bytes decoded so far,
so a truncated container yields a silent (possibly wrong-length) output
rather than a `TruncatedStream` failure. -/
theorem C5_decode_never_fails (root : Node) (hroot : root.isInternal)
    (bits : List Bool) : ∃ out, decode_loop root bits root = some out :=
  decode_loop_isSome root hroot bits root hroot

theorem C5_decode_never_fails_witness :
    ∃ out, decode_loop (Node.internal 2 (Node.leaf 66 1) (Node.leaf 65 1)) [false]
      (Node.internal 2 (Node.leaf 66 1) (Node.leaf 65 1)) = some out :=
  C5_decode_never_fails (Node.internal 2 (Node.leaf 66 1) (Node.leaf 65 1))
    (by decide) [false]

/-- C6 (counterexample): deserialization accepts a padding count of 8 —
outside `[0,7]` — without any error; indeed the encoder itself stores 8 for
byte-aligned payloads, and this container decodes successfully. -/
theorem C6_padding8_counterexample :
    ([0, 2, 65, 0, 0, 0, 4, 66, 0, 0, 0, 4, 8, 170, 0] : List Nat).getD 12 0 = 8
      ∧ decompress_file [0, 2, 65, 0, 0, 0, 4, 66, 0, 0, 0, 4, 8, 170, 0]
          = some [65, 66, 65, 66, 65, 66, 65, 66] := by decide

/-- C6 (amended): deserialization performs no validation of the padding
byte at all: the same container is decoded without error for every padding
value `p`, in particular for every value outside `[0,7]`. -/
theorem C6_no_padding_validation (p : Nat) :
    ∃ out, decompress_file
      ([0, 2, 65, 0, 0, 0, 4, 66, 0, 0, 0, 4] ++ p :: [170, 0]) = some out := by
  have hred : decompress_file ([0, 2, 65, 0, 0, 0, 4, 66, 0, 0, 0, 4] ++ p :: [170, 0])
      = decode_loop (Node.internal 8 (Node.leaf 66 4) (Node.leaf 65 4))
          (if p = 0 then []
           else (bytes_to_bits [170, 0]).take ((bytes_to_bits [170, 0]).length - p))
          (Node.internal 8 (Node.leaf 66 4) (Node.leaf 65 4)) := by
    unfold decompress_file
    simp only [Option.bind_eq_bind]
    norm_num
    have h2 : from_bytes [0, 2] = 2 := rfl
    rw [h2]
    have hrr : readRecords 2 [65, 0, 0, 0, 4, 66, 0, 0, 0, 4, p, 170, 0]
        = some ([(65, 4), (66, 4)], [p, 170, 0]) := rfl
    rw [hrr]
    simp only [Option.some_bind]
    have hct : create_huffman_tree [(65, 4), (66, 4)]
        = some (Node.internal 8 (Node.leaf 66 4) (Node.leaf 65 4)) := by decide
    rw [hct]
    simp only [Option.some_bind, List.head?_cons, List.tail_cons]
  obtain ⟨out, hout⟩ := decode_loop_isSome
    (Node.internal 8 (Node.leaf 66 4) (Node.leaf 65 4)) (by decide)
    (if p = 0 then []
     else (bytes_to_bits [170, 0]).take ((bytes_to_bits [170, 0]).length - p))
    (Node.internal 8 (Node.leaf 66 4) (Node.leaf 65 4)) (by decide)
  exact ⟨out, by rw [hred]; exact hout⟩

/-- C7 (counterexample): each frequency record is 5 bytes (uint8 byte value
plus uint32 frequency), not 6.  For the two-symbol input `AB` the container
is 14 bytes long, below the claimed lower bound `2 + 6•2 + 1 = 15`. -/
theorem C7_container_size_counterexample :
    compress_file [65, 66] = some [0, 2, 65, 0, 0, 0, 1, 66, 0, 0, 0, 1, 6, 128]
      ∧ ([0, 2, 65, 0, 0, 0, 1, 66, 0, 0, 0, 1, 6, 128] : List Nat).length
          < 2 + 6 * 2 + 1 := by decide

/-- C7 (amended): the container is a big-endian uint16 distinct-symbol
count N, then N five-byte records (uint8 byte value, big-endian uint32
frequency), then one padding byte, then the packed payload; the header
takes exactly `2 + 5N + 1` bytes and the total size is that plus the
payload length. -/
theorem C7_container_layout (data : List Nat) (hne : data ≠ [])
    (hb : ∀ b ∈ data, b < 256) (hlen : data.length < 2 ^ 32) :
    ∃ (records payload : List Nat) (pad : Nat),
      recordsBytes (counter data) = some records ∧
      compress_file data = some (toBytesAux (counter data).length 2
        ++ records ++ [pad] ++ payload) ∧
      from_bytes (toBytesAux (counter data).length 2) = (counter data).length ∧
      (toBytesAux (counter data).length 2).length = 2 ∧
      records.length = 5 * (counter data).length ∧
      (toBytesAux (counter data).length 2 ++ records ++ [pad] ++ payload).length
        = 2 + 5 * (counter data).length + 1 + payload.length := by
  obtain ⟨t, bits, rb, ht, hbits, hrb, hrblen, hN, hcomp⟩ :=
    compress_file_spec data hne hb hlen
  refine ⟨rb, _, pad_amount bits.length, hrb, hcomp,
    from_bytes_toBytesAux 2 _ (by norm_num; omega), toBytesAux_length 2 _, hrblen, ?_⟩
  simp only [List.length_append, toBytesAux_length, hrblen, List.length_cons,
    List.length_nil]

theorem C7_container_layout_witness :
    ∃ (records payload : List Nat) (pad : Nat),
      recordsBytes (counter [65, 66]) = some records ∧
      compress_file [65, 66] = some (toBytesAux (counter [65, 66]).length 2
        ++ records ++ [pad] ++ payload) ∧
      from_bytes (toBytesAux (counter [65, 66]).length 2) = (counter [65, 66]).length ∧
      (toBytesAux (counter [65, 66]).length 2).length = 2 ∧
      records.length = 5 * (counter [65, 66]).length ∧
      (toBytesAux (counter [65, 66]).length 2 ++ records ++ [pad] ++ payload).length
        = 2 + 5 * (counter [65, 66]).length + 1 + payload.length :=
  C7_container_layout [65, 66] (by decide) (by decide) (by decide)

/-- C8: every codebook generated from a Huffman tree built over a
(necessarily non-empty) frequency table is prefix-free: the code of one
byte value is never a prefix of the code of a different byte value. -/
theorem C8_codebook_not_a_pref (frequencies : List (Nat × Nat)) (t : Node)
    (h : create_huffman_tree frequencies = some t)
    (b1 b2 : Nat) (c1 c2 : List Bool)
    (h1 : (b1, c1) ∈ generate_codes t []) (h2 : (b2, c2) ∈ generate_codes t [])
    (hbne : b1 ≠ b2) : ¬ (c1 <+: c2) := by
  have hp := generate_codes_pairwise t []
  have hsym : Symmetric (fun e1 e2 : Nat × List Bool =>
      ¬ (e1.2 <+: e2.2) ∧ ¬ (e2.2 <+: e1.2)) := by
    intro a b hab
    exact ⟨hab.2, hab.1⟩
  have hpairne : (b1, c1) ≠ (b2, c2) := by
    intro he
    exact hbne (congrArg Prod.fst he)
  exact (List.Pairwise.forall hsym hp h1 h2 hpairne).1

theorem C8_codebook_not_a_pref_witness : ¬ ([false] <+: [true]) :=
  C8_codebook_not_a_pref [(65, 1), (66, 1)]
    (Node.internal 2 (Node.leaf 66 1) (Node.leaf 65 1)) (by decide)
    66 65 [false] [true] (by decide) (by decide) (by decide)

/-- C9: encoding is deterministic — the whole pipeline is a pure function
of the input bytes (the dictionary iteration order and the heap tie-breaks
are themselves deterministic functions of the input), so equal inputs give
byte-identical containers. -/
theorem C9_deterministic (d1 d2 : List Nat) (h : d1 = d2) :
    compress_file d1 = compress_file d2 := by rw [h]

theorem C9_deterministic_witness :
    compress_file [65, 66] = compress_file [65, 66] :=
  C9_deterministic [65, 66] [65, 66] rfl

/-- C10: for every bit string whose length is a multiple of eight,
converting to bytes (most-significant-bit first) and back is the
identity. -/
theorem C10_bits_bytes_roundtrip (s : List Bool) (h : s.length % 8 = 0) :
    bytes_to_bits (bits_to_bytes s) = s :=
  bytes_to_bits_bits_to_bytes s.length s rfl h

theorem C10_bits_bytes_roundtrip_witness :
    bytes_to_bits (bits_to_bytes
        [true, false, true, false, true, false, true, false])
      = [true, false, true, false, true, false, true, false] :=
  C10_bits_bytes_roundtrip [true, false, true, false, true, false, true, false]
    (by decide)

end Tp3
